import Mathlib

/-!
# Verification of the `rebecca` readme generator

A shallow embedding, in Lean 4, of the documentation-extraction core of the
`rebecca` package (file `rebecca.go`): the sentence-slice resolver
(`checkBounds`, `extractSections`), the doc lookup (`DocFunc` and its
regular expression `docRegex`), the plain example renderer (the `plain`
branch of `ExampleFunc`), and the declaration scanner (`scanPkg`).

Strings are modelled as Lean `String`s; the character-level work is done on
`List Char` with structural recursion so that every definition evaluates by
kernel reduction.  Go panics are modelled as `Except Err` results.
-/

namespace Rebecca

/-- Errors corresponding to the `panic` calls of `rebecca.go`, carrying the
format arguments of the panic message. -/
inductive Err where
  /-- Panic `"Doc for %s not found in %s."` (slice-spec path of `DocFunc`). -/
  | docNotFoundIn (id full : String)
  /-- Panic `"Doc for %s not found."` (plain path of `DocFunc`). -/
  | docNotFound (id : String)
  /-- Panic `"End must be greater than 0 in %s"` (`checkBounds`). -/
  | endZero (spec : String)
  /-- Panic `"Index %d out of range (length %d) in %s"` (`checkBounds`). -/
  | outOfRange (idx : Int) (length : Nat) (spec : String)
  /-- Panic `"Start must be less than end in %s"` (`checkBounds`). -/
  | order (spec : String)
  /-- Panic `"Invalid section %s in %s"` (`extractSections`). -/
  | invalidSection (section_ full : String)
  /-- A Go runtime `index out of range` panic (`scanPkg`). -/
  | indexOutOfRange
  deriving DecidableEq, Repr

/-- Go `strings.Split(s, sep)` for a one-character separator. -/
def splitOnC (sep : Char) : List Char → List (List Char)
  | [] => [[]]
  | c :: cs =>
    match splitOnC sep cs with
    | [] => [[c]]
    | h :: t => if c = sep then [] :: h :: t else (c :: h) :: t

/-- Go `strings.Trim(s, cutset)`: remove the characters of `cut` from both
ends of `l`. -/
def trimC (cut : List Char) (l : List Char) : List Char :=
  ((l.dropWhile (cut.contains ·)).reverse.dropWhile (cut.contains ·)).reverse

/-- The cutset `" \n"` used when trimming sentences. -/
def spaceNL : List Char := [' ', '\n']

/-- A digit as matched by `\d` / the class `[0-9]`. -/
def isDigitC (c : Char) : Bool := '0' ≤ c && c ≤ '9'

/-- A word character as matched by `\w` in Go regexps: `[0-9A-Za-z_]`. -/
def isWordChar (c : Char) : Bool := c.isAlpha || isDigitC c || c = '_'

/-- A character of the class `[0-9:, ]` of `docRegex`. -/
def isClassChar (c : Char) : Bool := isDigitC c || c = ':' || c = ',' || c = ' '

/-- A nonempty all-digit string, i.e. a match of `^\d+$`. -/
def digitsOnly (l : List Char) : Bool := !l.isEmpty && l.all isDigitC

/-- The numeric value of a digit string (`strconv.Atoi` on a `^\d+$` match). -/
def natOfDigits (l : List Char) : Nat :=
  l.foldl (fun n c => n * 10 + (c.toNat - '0'.toNat)) 0

/-- The four token forms of the slice mini-language, as classified by the
anchored regexps `bothRegex`, `fromRegex`, `toRegex` and `singleRegex`. -/
inductive SectionForm where
  /-- Regex `^(\d+):(\d+)$`. -/
  | both (i j : Nat)
  /-- Regex `^(\d+):$`. -/
  | fromIdx (i : Nat)
  /-- Regex `^:(\d+)$`. -/
  | toIdx (j : Nat)
  /-- Regex `^(\d+)$`. -/
  | single (i : Nat)
  deriving DecidableEq, Repr

/-- Which (if any) of the four anchored token regexps a section token
matches, with the captured bounds already converted by `mustInt`. -/
def parseSection (tok : List Char) : Option SectionForm :=
  match splitOnC ':' tok with
  | [a] => if digitsOnly a then some (.single (natOfDigits a)) else none
  | [a, b] =>
    if digitsOnly a && digitsOnly b then some (.both (natOfDigits a) (natOfDigits b))
    else if digitsOnly a && b.isEmpty then some (.fromIdx (natOfDigits a))
    else if a.isEmpty && digitsOnly b then some (.toIdx (natOfDigits b))
    else none
  | _ => none

/-- Function `checkBounds(start, end, length, spec)` of `rebecca.go`: the four panic
conditions, in source order, as an optional error.  `-1` is the sentinel the
callers pass for an absent bound. -/
def checkBounds (start end_ : Int) (length : Nat) (spec : String) : Option Err :=
  if end_ = 0 then some (.endZero spec)
  else if start ≥ length then some (.outOfRange start length spec)
  else if end_ ≥ length then some (.outOfRange end_ length spec)
  else if end_ > -1 ∧ start ≥ end_ then some (.order spec)
  else none

/-- The sentence list built at the top of `extractSections`: split the
comment on `'.'` and keep (untrimmed) every piece whose `" \n"`-trim is
nonempty. -/
def sentancesOf (comment : List Char) : List (List Char) :=
  (splitOnC '.' comment).filter (fun s => !(trimC spaceNL s).isEmpty)

/-- One iteration of the section loop of `extractSections`: classify the
token, run `checkBounds` with the arguments the source passes, and produce
the selected slice of the sentence list (Go `sentances[i:j]`, `[i:]`,
`[:j]`, or the singleton `sentances[i]`). -/
def processSection (full : String) (sents : List (List Char)) (tok : List Char) :
    Except Err (List (List Char)) :=
  match parseSection tok with
  | none => .error (.invalidSection ⟨tok⟩ full)
  | some (.both i j) =>
    match checkBounds i j sents.length full with
    | some e => .error e
    | none => .ok ((sents.drop i).take (j - i))
  | some (.fromIdx i) =>
    match checkBounds i (-1) sents.length full with
    | some e => .error e
    | none => .ok (sents.drop i)
  | some (.toIdx j) =>
    match checkBounds (-1) j sents.length full with
    | some e => .error e
    | none => .ok (sents.take j)
  | some (.single i) =>
    match checkBounds i (-1) sents.length full with
    | some e => .error e
    | none => .ok [sents.getD i []]

/-- The inner output loop of `extractSections`: append each selected
sentence `s` (untrimmed) followed by `'.'` to the accumulator, skipping
sentences whose `" \n"`-trim is empty. -/
def appendArr : List (List Char) → List Char → List Char
  | [], out => out
  | s :: rest, out =>
    appendArr rest (if !(trimC spaceNL s).isEmpty then out ++ s ++ ['.'] else out)

/-- The section loop of `extractSections` over the comma-split token list,
threading the output accumulator; the final result is trimmed of spaces. -/
def extractSectionsAux (full : String) (sents : List (List Char)) :
    List (List Char) → List Char → Except Err (List Char)
  | [], out => .ok (trimC [' '] out)
  | t :: ts, out =>
    match processSection full sents t with
    | .error e => .error e
    | .ok arr => extractSectionsAux full sents ts (appendArr arr out)

/-- Function `extractSections(full, sections, comment)` of `rebecca.go`, with panics
as errors. -/
def extractSections (full sections comment : String) : Except Err String :=
  (extractSectionsAux full (sentancesOf comment.data)
    (splitOnC ',' sections.data) []).map (⟨·⟩)

/-- Applying `dropWhile` never lengthens a list. -/
theorem length_dropWhile_le (p : α → Bool) (l : List α) :
    (l.dropWhile p).length ≤ l.length := by
  induction l with
  | nil => simp
  | cons c cs ih =>
    by_cases h : p c
    · rw [List.dropWhile_cons_of_pos h]; exact Nat.le_succ_of_le ih
    · rw [List.dropWhile_cons_of_neg h]

/-- The bracketed part of `docRegex`: given the text following a maximal
word run, succeed exactly when it starts with `'['`, then one or more
characters of the class `[0-9:, ]` (taken greedily), then `']'`, returning
the captured class run. -/
def checkBracket : List Char → Option (List Char)
  | '[' :: rest =>
    match rest.takeWhile isClassChar, rest.dropWhile isClassChar with
    | _ :: _, ']' :: _ => some (rest.takeWhile isClassChar)
    | _, _ => none
  | _ => none

/-- Model of `docRegex.FindStringSubmatch`: the leftmost match of
`(\w+)\[([0-9:, ]+)\]`, returning the two capture groups.  A match starting
inside a word run would need the same bracket suffix as the run's start, so
scanning can skip a failed run whole. -/
def findDoc : List Char → Option (List Char × List Char)
  | [] => none
  | c :: cs =>
    if isWordChar c then
      match checkBracket ((c :: cs).dropWhile isWordChar) with
      | some cl => some ((c :: cs).takeWhile isWordChar, cl)
      | none => findDoc ((c :: cs).dropWhile isWordChar)
    else findDoc cs
termination_by l => l.length
decreasing_by
  · simp only [List.dropWhile]
    split
    · exact Nat.lt_succ_of_le (length_dropWhile_le _ _)
    · simp_all
  · simp

/-- The comment index: later insertions shadow earlier ones, modelling the
overwriting writes to the Go map `m.Comments`. -/
abbrev CommentsMap := List (String × String)

/-- A write `m.Comments[k] = v`. -/
def insertComment (k v : String) (m : CommentsMap) : CommentsMap := (k, v) :: m

/-- Function `DocFunc` of `rebecca.go`: if the input matches `docRegex`, look up the
first capture group and slice its comment with `extractSections`; otherwise
look up the input itself and return its comment trimmed of `"\n"`. -/
def DocFunc (comments : CommentsMap) (in_ : String) : Except Err String :=
  match findDoc in_.data with
  | some (id, secs) =>
    match List.lookup (⟨id⟩ : String) comments with
    | none => .error (.docNotFoundIn ⟨id⟩ in_)
    | some c => extractSections in_ ⟨secs⟩ c
  | none =>
    match List.lookup in_ comments with
    | none => .error (.docNotFound in_)
    | some c => .ok ⟨trimC ['\n'] c.data⟩

/-- The output-assertion marker `"\n\t// Output:"` searched for by the
`plain` branch of `ExampleFunc`. -/
def oMarker : List Char := "\n\t// Output:".data

/-- Go `strings.Index(l, pat)`: the first index at which `pat` occurs in
`l`, if any. -/
def indexOfPat (pat : List Char) : List Char → Option Nat
  | [] => if pat.isEmpty then some 0 else none
  | c :: cs =>
    if pat.isPrefixOf (c :: cs) then some 0 else (indexOfPat pat cs).map (· + 1)

/-- The blank-line correction of `ExampleFunc`'s plain branch: if the text
ends in `"\n\n}"`, drop the last two characters and re-append `'}'`. -/
def fixBrace (l : List Char) : List Char :=
  if ['\n', '\n', '}'].isSuffixOf l then l.dropLast.dropLast ++ ['}'] else l

/-- The output-assertion removal of `ExampleFunc`'s plain branch: truncate
at the first occurrence of `oMarker` and re-close the block with `"\n}"`. -/
def stripOutput (l : List Char) : List Char :=
  match indexOfPat oMarker l with
  | some i => l.take i ++ ['\n', '}']
  | none => l

/-- The `plain = true` branch of `ExampleFunc` (lines 52–64), as a function
of the text produced by `printer.Fprint` for the example's commented node
(the printer is the external `go/printer` collaborator). -/
def ExampleFuncPlain (printed : String) : String :=
  ⟨stripOutput (fixBrace printed.data)⟩

/-- A method receiver type expression (`d.Recv.List[0].Type`): a named type
or a by-reference (star) expression. -/
inductive Expr where
  | ident (name : String)
  | star (e : Expr)
  deriving DecidableEq, Repr

/-- Print of a receiver type expression, as `printer.Fprint` renders it. -/
def printExpr : Expr → List Char
  | .ident n => n.data
  | .star e => '*' :: printExpr e

/-- An `ast.Field` of a struct type: its doc comment text and declared
names (empty for an embedded field). -/
structure Field where
  doc : String
  names : List String
  deriving DecidableEq, Repr

/-- The type on the right-hand side of a type spec: a struct or anything
else. -/
inductive TypeExpr where
  | structType (fields : List Field)
  | otherType
  deriving DecidableEq, Repr

/-- An `ast.Spec` of a `GenDecl`: a type spec, a value spec, or any other
spec kind (such as an import spec), which `scanPkg` ignores. -/
inductive Spec where
  | typeSpec (name : String) (type_ : TypeExpr)
  | valueSpec (names : List String)
  | importSpec
  deriving DecidableEq, Repr

/-- A top-level declaration as consumed by `scanPkg`. -/
inductive Decl where
  | funcDecl (doc : String) (name : String) (recv : Option Expr)
  | genDecl (doc : String) (specs : List Spec)
  deriving DecidableEq, Repr

/-- A parsed file: its path, file-level doc comment text, and declarations. -/
structure File where
  path : String
  doc : String
  decls : List Decl
  deriving DecidableEq, Repr

/-- Function `ast.IsExported`: the first character is upper-case. -/
def isExported (name : String) : Bool :=
  match name.data with
  | [] => false
  | c :: _ => c.isUpper

/-- Go `filepath.Split`'s file component: everything after the last path
separator. -/
def baseName (p : String) : String := ⟨(splitOnC '/' p.data).getLastD []⟩

/-- Go `strings.Replace(name, ".", "_", -1)`. -/
def replaceDotUnderscore (s : String) : String :=
  ⟨s.data.map (fun c => if c = '.' then '_' else c)⟩

/-- The index key of a file-level comment. -/
def fileKey (p : String) : String := replaceDotUnderscore (baseName p)

/-- The field loop of `scanPkg` for a struct type spec: skip fields with an
empty doc, read `f.Names[0]` (a Go index-out-of-range panic when `Names` is
empty), and record exported documented fields under `"TypeName.FieldName"`. -/
def scanFields (tname : String) (m : CommentsMap) : List Field → Except Err CommentsMap
  | [] => .ok m
  | f :: fs =>
    if f.doc = "" then scanFields tname m fs
    else
      match f.names with
      | [] => .error .indexOutOfRange
      | n :: _ =>
        scanFields tname
          (if isExported n then insertComment (tname ++ "." ++ n) f.doc m else m) fs

/-- One iteration of the declaration loop of `scanPkg`. -/
def processDecl (m : CommentsMap) : Decl → Except Err CommentsMap
  | .funcDecl doc name recv =>
    if doc = "" then .ok m
    else
      match recv with
      | none => .ok (insertComment name doc m)
      | some e =>
        .ok (insertComment
          ((⟨printExpr (match e with | .star x => x | _ => e)⟩ : String) ++ "." ++ name)
          doc m)
  | .genDecl doc specs =>
    match specs with
    | [] => .error .indexOutOfRange
    | s :: _ =>
      match s with
      | .typeSpec name t =>
        match t with
        | .structType fields => scanFields name (insertComment name doc m) fields
        | .otherType => .ok (insertComment name doc m)
      | .valueSpec names =>
        if doc = "" then .ok m
        else
          match names with
          | [] => .ok m
          | n :: _ => .ok (insertComment n doc m)
      | .importSpec => .ok m

/-- The declaration loop of `scanPkg` over one file's declarations. -/
def scanDecls (m : CommentsMap) : List Decl → Except Err CommentsMap
  | [] => .ok m
  | d :: ds =>
    match processDecl m d with
    | .error e => .error e
    | .ok m' => scanDecls m' ds

/-- `scanPkg`'s handling of one file: record a non-empty file-level comment
under the file key, then scan the declarations. -/
def processFile (m : CommentsMap) (f : File) : Except Err CommentsMap :=
  scanDecls (if f.doc ≠ "" then insertComment (fileKey f.path) f.doc m else m) f.decls

/-- The file loop of `scanPkg`. -/
def scanFiles (m : CommentsMap) : List File → Except Err CommentsMap
  | [] => .ok m
  | f :: fs =>
    match processFile m f with
    | .error e => .error e
    | .ok m' => scanFiles m' fs

/-- Function `scanPkg` of `rebecca.go`, building the comment index from an empty map
(runtime panics modelled as errors). -/
def scanPkg (files : List File) : Except Err CommentsMap := scanFiles [] files

/-- The per-token error behaviour in the words of the spec (§4.2), amended
to match the source on the end-equals-zero case: an unrecognized token is a
syntax error naming the token and the full spec; an explicit end bound of
zero fails with the end-must-be-greater-than-zero error naming only the
full spec; an explicit start or end bound not strictly less than the
sentence count fails with an out-of-range error naming the bound and the
count; with both bounds explicit and start ≥ end, an order error; earlier
checks take priority. -/
def specTokenError (full : String) (n : Nat) (tok : List Char) : Option Err :=
  match parseSection tok with
  | none => some (.invalidSection ⟨tok⟩ full)
  | some (.both i j) =>
    if j = 0 then some (.endZero full)
    else if n ≤ i then some (.outOfRange i n full)
    else if n ≤ j then some (.outOfRange j n full)
    else if j ≤ i then some (.order full)
    else none
  | some (.fromIdx i) => if n ≤ i then some (.outOfRange i n full) else none
  | some (.toIdx j) =>
    if j = 0 then some (.endZero full)
    else if n ≤ j then some (.outOfRange j n full)
    else none
  | some (.single i) => if n ≤ i then some (.outOfRange i n full) else none

/-- The per-token sentence selections of a slice spec: the selected slice of
each token in listed order, or the first error. -/
def sectionArrs (full : String) (sents : List (List Char)) :
    List (List Char) → Except Err (List (List (List Char)))
  | [] => .ok []
  | t :: ts =>
    match processSection full sents t with
    | .error e => .error e
    | .ok arr =>
      match sectionArrs full sents ts with
      | .error e => .error e
      | .ok rest => .ok (arr :: rest)

/-- Keep only the first spec of each declaration group, leaving everything
else unchanged. -/
def truncateSpecs : Decl → Decl
  | .funcDecl doc name recv => .funcDecl doc name recv
  | .genDecl doc specs => .genDecl doc (specs.take 1)

/-- Lift of `truncateSpecs` to every declaration of a file. -/
def truncateFile (f : File) : File := ⟨f.path, f.doc, f.decls.map truncateSpecs⟩

end Rebecca

namespace Rebecca

theorem processDecl_truncate (m : CommentsMap) (d : Decl) :
    processDecl m (truncateSpecs d) = processDecl m d := by
  cases d with
  | funcDecl doc name recv => rfl
  | genDecl doc specs => cases specs <;> rfl

theorem scanDecls_truncate (ds : List Decl) :
    ∀ m : CommentsMap, scanDecls m (ds.map truncateSpecs) = scanDecls m ds := by
  induction ds with
  | nil => intro m; rfl
  | cons d ds ih =>
    intro m
    simp only [List.map_cons, scanDecls, processDecl_truncate]
    cases processDecl m d with
    | error e => rfl
    | ok m' => exact ih m'

theorem processFile_truncate (m : CommentsMap) (f : File) :
    processFile m (truncateFile f) = processFile m f := by
  cases f with
  | mk path doc decls => simp only [processFile, truncateFile, scanDecls_truncate]

/-- Claim C10: The index build examines only the first spec of a grouped
declaration: truncating every declaration group to its first spec leaves
`scanPkg`'s result unchanged, so a type or value declared in a later spec
of a group never contributes an index entry, whatever its doc comments. -/
theorem scanPkg_ignores_later_specs (files : List File) :
    scanPkg (files.map truncateFile) = scanPkg files := by
  suffices h : ∀ m, scanFiles m (files.map truncateFile) = scanFiles m files by
    exact h []
  induction files with
  | nil => intro m; rfl
  | cons f fs ih =>
    intro m
    simp only [List.map_cons, scanFiles, processFile_truncate]
    cases processFile m f with
    | error e => rfl
    | ok m' => exact ih m'

/-- Claim C7: A documented method declaration is recorded under the key
`"HostType.MethodName"`, and a by-reference (star) receiver is normalized
to the underlying named type, so the key is the same whether or not the
receiver was expressed by reference. -/
theorem method_key_normalized (m : CommentsMap) (T mname doc : String) (recv : Expr)
    (hdoc : doc ≠ "") (hrecv : recv = .ident T ∨ recv = .star (.ident T)) :
    processDecl m (.funcDecl doc mname (some recv)) =
      .ok (insertComment (T ++ "." ++ mname) doc m) := by
  rcases hrecv with rfl | rfl <;> simp [processDecl, hdoc, printExpr]

theorem method_key_normalized_witness :
    ("d\n" : String) ≠ "" ∧
      processDecl [] (.funcDecl "d\n" "M" (some (.star (.ident "T")))) =
        .ok (insertComment ("T" ++ "." ++ "M") "d\n" []) :=
  ⟨by decide, method_key_normalized [] "T" "M" "d\n" _ (by decide) (Or.inr rfl)⟩

theorem mem_scanFields (tname : String) (fields : List Field) :
    ∀ (m m' : CommentsMap), scanFields tname m fields = .ok m' →
      ∀ kv ∈ m', kv ∈ m ∨ kv.2 ≠ "" := by
  induction fields with
  | nil =>
    intro m m' h kv hkv
    simp only [scanFields] at h
    cases h; exact Or.inl hkv
  | cons f fs ih =>
    intro m m' h kv hkv
    simp only [scanFields] at h
    by_cases hd : f.doc = ""
    · rw [if_pos hd] at h; exact ih m m' h kv hkv
    · rw [if_neg hd] at h
      cases hn : f.names with
      | nil => rw [hn] at h; cases h
      | cons n ns =>
        rw [hn] at h
        rcases ih _ m' h kv hkv with hmem | hne
        · by_cases he : isExported n = true
          · rw [if_pos he] at hmem
            simp only [insertComment] at hmem
            rcases List.mem_cons.mp hmem with heq | hmem₀
            · right; rw [heq]; exact hd
            · exact Or.inl hmem₀
          · rw [if_neg he] at hmem; exact Or.inl hmem
        · exact Or.inr hne

theorem mem_processDecl (m m' : CommentsMap) (d : Decl) (h : processDecl m d = .ok m')
    (kv : String × String) (hkv : kv ∈ m') :
    kv ∈ m ∨ kv.2 ≠ "" ∨
      ∃ t specs, d = .genDecl "" (Spec.typeSpec kv.1 t :: specs) := by
  cases d with
  | funcDecl doc name recv =>
    simp only [processDecl] at h
    by_cases hd : doc = ""
    · rw [if_pos hd] at h; cases h; exact Or.inl hkv
    · rw [if_neg hd] at h
      cases recv with
      | none =>
        cases h
        simp only [insertComment] at hkv
        rcases List.mem_cons.mp hkv with heq | hmem
        · right; left; rw [heq]; exact hd
        · exact Or.inl hmem
      | some e =>
        cases h
        simp only [insertComment] at hkv
        rcases List.mem_cons.mp hkv with heq | hmem
        · right; left; rw [heq]; exact hd
        · exact Or.inl hmem
  | genDecl doc specs =>
    cases specs with
    | nil => cases h
    | cons s rest =>
      cases s with
      | typeSpec name t =>
        cases t with
        | structType fields =>
          simp only [processDecl] at h
          rcases mem_scanFields name fields _ m' h kv hkv with hmem | hne
          · simp only [insertComment] at hmem
            rcases List.mem_cons.mp hmem with heq | hmem₀
            · by_cases hd : doc = ""
              · right; right
                refine ⟨.structType fields, rest, ?_⟩
                rw [hd, show kv.1 = name from congrArg Prod.fst heq]
              · right; left; rw [heq]; exact hd
            · exact Or.inl hmem₀
          · exact Or.inr (Or.inl hne)
        | otherType =>
          simp only [processDecl] at h
          cases h
          simp only [insertComment] at hkv
          rcases List.mem_cons.mp hkv with heq | hmem
          · by_cases hd : doc = ""
            · right; right
              refine ⟨.otherType, rest, ?_⟩
              rw [hd, show kv.1 = name from congrArg Prod.fst heq]
            · right; left; rw [heq]; exact hd
          · exact Or.inl hmem
      | valueSpec names =>
        simp only [processDecl] at h
        by_cases hd : doc = ""
        · rw [if_pos hd] at h; cases h; exact Or.inl hkv
        · rw [if_neg hd] at h
          cases names with
          | nil => cases h; exact Or.inl hkv
          | cons n ns =>
            cases h
            simp only [insertComment] at hkv
            rcases List.mem_cons.mp hkv with heq | hmem
            · right; left; rw [heq]; exact hd
            · exact Or.inl hmem
      | importSpec =>
        simp only [processDecl] at h
        cases h; exact Or.inl hkv

theorem mem_scanDecls (ds : List Decl) :
    ∀ (m m' : CommentsMap), scanDecls m ds = .ok m' →
      ∀ kv ∈ m', kv ∈ m ∨ kv.2 ≠ "" ∨
        ∃ d ∈ ds, ∃ t specs, d = Decl.genDecl "" (Spec.typeSpec kv.1 t :: specs) := by
  induction ds with
  | nil =>
    intro m m' h kv hkv
    simp only [scanDecls] at h; cases h; exact Or.inl hkv
  | cons d ds ih =>
    intro m m' h kv hkv
    simp only [scanDecls] at h
    cases hp : processDecl m d with
    | error e => rw [hp] at h; cases h
    | ok m₁ =>
      rw [hp] at h
      rcases ih m₁ m' h kv hkv with hmem | hne | ⟨d', hd', w⟩
      · rcases mem_processDecl m m₁ d hp kv hmem with hmem₀ | hne | ⟨t, specs, hdecl⟩
        · exact Or.inl hmem₀
        · exact Or.inr (Or.inl hne)
        · exact Or.inr (Or.inr ⟨d, List.mem_cons_self d ds, t, specs, hdecl⟩)
      · exact Or.inr (Or.inl hne)
      · exact Or.inr (Or.inr ⟨d', List.mem_cons_of_mem d hd', w⟩)

theorem mem_processFile (m m' : CommentsMap) (f : File) (h : processFile m f = .ok m')
    (kv : String × String) (hkv : kv ∈ m') :
    kv ∈ m ∨ kv.2 ≠ "" ∨
      ∃ d ∈ f.decls, ∃ t specs, d = Decl.genDecl "" (Spec.typeSpec kv.1 t :: specs) := by
  unfold processFile at h
  rcases mem_scanDecls f.decls _ m' h kv hkv with hmem | hne | w
  · by_cases hd : f.doc ≠ ""
    · rw [if_pos hd] at hmem
      simp only [insertComment] at hmem
      rcases List.mem_cons.mp hmem with heq | hmem₀
      · right; left; rw [heq]; exact hd
      · exact Or.inl hmem₀
    · rw [if_neg hd] at hmem; exact Or.inl hmem
  · exact Or.inr (Or.inl hne)
  · exact Or.inr (Or.inr w)

theorem mem_scanFiles (files : List File) :
    ∀ (m m' : CommentsMap), scanFiles m files = .ok m' →
      ∀ kv ∈ m', kv ∈ m ∨ kv.2 ≠ "" ∨
        ∃ f ∈ files, ∃ d ∈ f.decls, ∃ t specs,
          d = Decl.genDecl "" (Spec.typeSpec kv.1 t :: specs) := by
  induction files with
  | nil =>
    intro m m' h kv hkv
    simp only [scanFiles] at h; cases h; exact Or.inl hkv
  | cons f fs ih =>
    intro m m' h kv hkv
    simp only [scanFiles] at h
    cases hp : processFile m f with
    | error e => rw [hp] at h; cases h
    | ok m₁ =>
      rw [hp] at h
      rcases ih m₁ m' h kv hkv with hmem | hne | ⟨f', hf', w⟩
      · rcases mem_processFile m m₁ f hp kv hmem with hmem₀ | hne | ⟨d, hd, w⟩
        · exact Or.inl hmem₀
        · exact Or.inr (Or.inl hne)
        · exact Or.inr (Or.inr ⟨f, List.mem_cons_self f fs, d, hd, w⟩)
      · exact Or.inr (Or.inl hne)
      · exact Or.inr (Or.inr ⟨f', List.mem_cons_of_mem f hf', w⟩)

/-- Claim C4, counterexample: An undocumented type declaration does
contribute an index entry: building from a single file holding one
doc-less `type T ...` declaration yields an entry mapping `"T"` to the
empty doc text, so it is not the case that no declaration without a doc
comment contributes an entry. -/
theorem undocumented_type_contributes :
    scanPkg [⟨"d/f.go", "", [.genDecl "" [.typeSpec "T" .otherType]]⟩] =
      .ok [("T", "")] := by rfl

/-- Claim C4, amended: After a successful build, every index entry either
carries a non-empty doc text — so no undocumented function, method, field
or value group, and no value group without declared names, contributes an
entry — or is the entry of an undocumented type declaration (the one kind
of declaration recorded even without a doc comment, with empty doc text). -/
theorem no_undocumented_entries (files : List File) (m : CommentsMap)
    (h : scanPkg files = .ok m) (kv : String × String) (hkv : kv ∈ m) :
    kv.2 ≠ "" ∨
      ∃ f ∈ files, ∃ d ∈ f.decls, ∃ t specs,
        d = Decl.genDecl "" (Spec.typeSpec kv.1 t :: specs) := by
  rcases mem_scanFiles files [] m h kv hkv with hmem | hne | w
  · cases hmem
  · exact Or.inl hne
  · exact Or.inr w

theorem no_undocumented_entries_witness :
    scanPkg [⟨"d/f.go", "", [.funcDecl "doc\n" "F" none]⟩] = .ok [("F", "doc\n")] ∧
      (("F", "doc\n") : String × String) ∈ [("F", "doc\n")] ∧
      ((("F", "doc\n") : String × String).2 ≠ "" ∨
        ∃ f ∈ [(⟨"d/f.go", "", [.funcDecl "doc\n" "F" none]⟩ : File)], ∃ d ∈ f.decls,
          ∃ t specs, d = Decl.genDecl "" (Spec.typeSpec "F" t :: specs)) :=
  ⟨by rfl, by decide,
    no_undocumented_entries _ _ (by rfl) ("F", "doc\n") (by decide)⟩

theorem scanFields_error_eq (tname : String) (fields : List Field) :
    ∀ (m : CommentsMap) (e : Err), scanFields tname m fields = .error e →
      e = .indexOutOfRange := by
  induction fields with
  | nil => intro m e h; cases h
  | cons f fs ih =>
    intro m e h
    simp only [scanFields] at h
    by_cases hd : f.doc = ""
    · rw [if_pos hd] at h; exact ih m e h
    · rw [if_neg hd] at h
      cases hn : f.names with
      | nil => rw [hn] at h; cases h; rfl
      | cons n ns => rw [hn] at h; exact ih _ e h

theorem processDecl_error_eq (m : CommentsMap) (d : Decl) (e : Err)
    (h : processDecl m d = .error e) : e = .indexOutOfRange := by
  cases d with
  | funcDecl doc name recv =>
    simp only [processDecl] at h
    by_cases hd : doc = ""
    · rw [if_pos hd] at h; cases h
    · rw [if_neg hd] at h; cases recv <;> cases h
  | genDecl doc specs =>
    cases specs with
    | nil => cases h; rfl
    | cons s rest =>
      cases s with
      | typeSpec name t =>
        cases t with
        | structType fields =>
          simp only [processDecl] at h
          exact scanFields_error_eq name fields _ e h
        | otherType => cases h
      | valueSpec names =>
        simp only [processDecl] at h
        by_cases hd : doc = ""
        · rw [if_pos hd] at h; cases h
        · rw [if_neg hd] at h; cases names <;> cases h
      | importSpec => cases h

theorem scanDecls_error_eq (ds : List Decl) :
    ∀ (m : CommentsMap) (e : Err), scanDecls m ds = .error e →
      e = .indexOutOfRange := by
  induction ds with
  | nil => intro m e h; cases h
  | cons d ds ih =>
    intro m e h
    simp only [scanDecls] at h
    cases hp : processDecl m d with
    | error e' =>
      rw [hp] at h; cases h
      exact processDecl_error_eq m d e hp
    | ok m' => rw [hp] at h; exact ih m' e h

theorem scanFiles_error_eq (files : List File) :
    ∀ (m : CommentsMap) (e : Err), scanFiles m files = .error e →
      e = .indexOutOfRange := by
  induction files with
  | nil => intro m e h; cases h
  | cons f fs ih =>
    intro m e h
    simp only [scanFiles] at h
    cases hp : processFile m f with
    | error e' =>
      rw [hp] at h; cases h
      exact scanDecls_error_eq f.decls _ e hp
    | ok m' => rw [hp] at h; exact ih m' e h

theorem scanFields_crash (tname : String) (fields : List Field)
    (hc : ∃ fld ∈ fields, fld.doc ≠ "" ∧ fld.names = []) :
    ∀ m : CommentsMap, scanFields tname m fields = .error .indexOutOfRange := by
  induction fields with
  | nil => rcases hc with ⟨fld, hf, -⟩; cases hf
  | cons f fs ih =>
    intro m
    simp only [scanFields]
    rcases hc with ⟨fld, hf, hdoc, hnames⟩
    rcases List.mem_cons.mp hf with rfl | hf₀
    · rw [if_neg hdoc, hnames]
    · by_cases hd : f.doc = ""
      · rw [if_pos hd]; exact ih ⟨fld, hf₀, hdoc, hnames⟩ m
      · rw [if_neg hd]
        cases hn : f.names with
        | nil => rfl
        | cons n ns => exact ih ⟨fld, hf₀, hdoc, hnames⟩ _

theorem processDecl_crash (doc tname : String) (fields : List Field) (rest : List Spec)
    (hc : ∃ fld ∈ fields, fld.doc ≠ "" ∧ fld.names = []) (m : CommentsMap) :
    processDecl m (.genDecl doc (Spec.typeSpec tname (.structType fields) :: rest)) =
      .error .indexOutOfRange := by
  simp only [processDecl]
  exact scanFields_crash tname fields hc _

theorem scanDecls_crash (ds : List Decl) (d : Decl)
    (hcrash : ∀ m₀ : CommentsMap, processDecl m₀ d = .error .indexOutOfRange)
    (hd : d ∈ ds) :
    ∀ m : CommentsMap, scanDecls m ds = .error .indexOutOfRange := by
  induction ds with
  | nil => cases hd
  | cons d₀ ds ih =>
    intro m
    simp only [scanDecls]
    rcases List.mem_cons.mp hd with rfl | hd₀
    · rw [hcrash m]
    · cases hp : processDecl m d₀ with
      | error e => rw [processDecl_error_eq m d₀ e hp]
      | ok m₁ => exact ih hd₀ m₁

theorem scanFiles_crash (files : List File) (f : File)
    (hcrash : ∀ m₀ : CommentsMap, processFile m₀ f = .error .indexOutOfRange)
    (hf : f ∈ files) :
    ∀ m : CommentsMap, scanFiles m files = .error .indexOutOfRange := by
  induction files with
  | nil => cases hf
  | cons f₀ fs ih =>
    intro m
    simp only [scanFiles]
    rcases List.mem_cons.mp hf with rfl | hf₀
    · rw [hcrash m]
    · cases hp : processFile m f₀ with
      | error e => rw [scanDecls_error_eq f₀.decls _ e hp]
      | ok m₁ => exact ih hf₀ m₁

/-- Claim C8: If a scanned file declares a struct type one of whose fields
carries a doc comment but declares no name (an embedded field), the build
does not return a parse error and does not skip the field: it fails with
the Go runtime index-out-of-range panic raised when reading the field's
first name, so the build is not total over parseable inputs. -/
theorem embedded_field_crashes (files : List File) (f : File) (doc tname : String)
    (fields : List Field) (rest : List Spec) (fld : Field)
    (hf : f ∈ files)
    (hd : Decl.genDecl doc (Spec.typeSpec tname (.structType fields) :: rest) ∈ f.decls)
    (hfld : fld ∈ fields) (hdoc : fld.doc ≠ "") (hnames : fld.names = []) :
    scanPkg files = .error Err.indexOutOfRange := by
  refine scanFiles_crash files f (fun m₀ => ?_) hf []
  exact scanDecls_crash f.decls _
    (processDecl_crash doc tname fields rest ⟨fld, hfld, hdoc, hnames⟩) hd _

theorem embedded_field_crashes_witness :
    (⟨"fd\n", []⟩ : Field) ∈ [(⟨"fd\n", []⟩ : Field)] ∧ ("fd\n" : String) ≠ "" ∧
      scanPkg [⟨"d/f.go", "",
          [.genDecl "d\n" [.typeSpec "T" (.structType [⟨"fd\n", []⟩])]]⟩] =
        .error Err.indexOutOfRange :=
  ⟨by decide, by decide,
    embedded_field_crashes
      [⟨"d/f.go", "", [.genDecl "d\n" [.typeSpec "T" (.structType [⟨"fd\n", []⟩])]]⟩]
      ⟨"d/f.go", "", [.genDecl "d\n" [.typeSpec "T" (.structType [⟨"fd\n", []⟩])]]⟩
      "d\n" "T" [⟨"fd\n", []⟩] [] ⟨"fd\n", []⟩
      (by decide) (by decide) (by decide) (by decide) rfl⟩

theorem checkBounds_both_eq (i j n : Nat) (full : String) :
    checkBounds i j n full =
      (if j = 0 then some (.endZero full)
       else if n ≤ i then some (.outOfRange i n full)
       else if n ≤ j then some (.outOfRange j n full)
       else if j ≤ i then some (.order full)
       else none) := by
  unfold checkBounds
  split_ifs <;> first | rfl | (exfalso; first | assumption | omega)

theorem checkBounds_from_eq (i n : Nat) (full : String) :
    checkBounds i (-1) n full =
      (if n ≤ i then some (.outOfRange i n full) else none) := by
  unfold checkBounds
  split_ifs <;> first | rfl | (exfalso; first | assumption | omega)

theorem checkBounds_to_eq (j n : Nat) (full : String) :
    checkBounds (-1) j n full =
      (if j = 0 then some (.endZero full)
       else if n ≤ j then some (.outOfRange j n full)
       else none) := by
  unfold checkBounds
  split_ifs <;> first | rfl | (exfalso; first | assumption | omega)

/-- Claim C2, amended: Per-token error behaviour of the slice resolver,
checked before any slicing of the token: a token matching none of the four
grammar forms fails with the invalid-section (syntax) error naming the
token and the full spec; an explicit end bound of zero fails with the
end-must-be-greater-than-zero error, which names the full spec but not the
offending bound or the sentence count; an explicit start or end bound not
strictly less than the sentence count fails with the out-of-range error
naming the offending bound and the sentence count; with both bounds
explicit and start ≥ end, the order error; earlier checks take priority,
in the order end-zero, start range, end range, order. -/
theorem token_error_characterization (full comment : String) (tok : List Char) (e : Err) :
    processSection full (sentancesOf comment.data) tok = .error e ↔
      specTokenError full (sentancesOf comment.data).length tok = some e := by
  cases hp : parseSection tok with
  | none => simp [processSection, specTokenError, hp]
  | some f =>
    cases f with
    | both i j =>
      simp only [processSection, specTokenError, hp, checkBounds_both_eq]
      split_ifs <;> simp
    | fromIdx i =>
      simp only [processSection, specTokenError, hp, checkBounds_from_eq]
      split_ifs <;> simp
    | toIdx j =>
      simp only [processSection, specTokenError, hp, checkBounds_to_eq]
      split_ifs <;> simp
    | single i =>
      simp only [processSection, specTokenError, hp, checkBounds_from_eq]
      split_ifs <;> simp

/-- Claim C2, counterexample: A token whose explicit end bound is zero does
not fail with an out-of-range error naming the offending bound and the
sentence count: it fails with the end-must-be-greater-than-zero error,
which carries only the full spec. -/
theorem end_zero_error_shape :
    extractSections "x[:0]" ":0" "A. B." = .error (.endZero "x[:0]") := by rfl

theorem splitOnC_ne_nil (sep : Char) (l : List Char) : splitOnC sep l ≠ [] := by
  cases l with
  | nil => simp [splitOnC]
  | cons c cs =>
    simp only [splitOnC]
    cases hs : splitOnC sep cs with
    | nil => simp
    | cons h t => by_cases hc : c = sep <;> simp [hc]

theorem splitOnC_eq_single (sep : Char) (l x : List Char)
    (h : splitOnC sep l = [x]) : l = x := by
  induction l generalizing x with
  | nil => simp only [splitOnC] at h; cases h; rfl
  | cons c cs ih =>
    simp only [splitOnC] at h
    cases hs : splitOnC sep cs with
    | nil => exact absurd hs (splitOnC_ne_nil sep cs)
    | cons h₀ t =>
      simp only [hs] at h
      by_cases hc : c = sep
      · rw [if_pos hc] at h; cases h
      · rw [if_neg hc] at h
        cases h
        have hcs : cs = h₀ := ih h₀ hs
        rw [hcs]

theorem splitOnC_eq_pair (sep : Char) (l a b : List Char)
    (h : splitOnC sep l = [a, b]) : l = a ++ sep :: b := by
  induction l generalizing a with
  | nil => simp only [splitOnC] at h; cases h
  | cons c cs ih =>
    simp only [splitOnC] at h
    cases hs : splitOnC sep cs with
    | nil => exact absurd hs (splitOnC_ne_nil sep cs)
    | cons h₀ t =>
      simp only [hs] at h
      by_cases hc : c = sep
      · rw [if_pos hc] at h
        cases h
        rw [hc]
        have hcs : cs = b := splitOnC_eq_single sep cs b hs
        rw [hcs]
        rfl
      · rw [if_neg hc] at h
        cases h
        have hcs : cs = h₀ ++ sep :: b := ih h₀ hs
        rw [hcs]
        rfl

theorem splitOnC_no_sep (sep : Char) (l : List Char) (h : sep ∉ l) :
    splitOnC sep l = [l] := by
  induction l with
  | nil => rfl
  | cons c cs ih =>
    have hcs : sep ∉ cs := fun hx => h (List.mem_cons_of_mem c hx)
    have hc : ¬c = sep := fun hx => h (hx ▸ List.mem_cons_self c cs)
    simp only [splitOnC, ih hcs, if_neg hc]

theorem digitsOnly_mem (l : List Char) (h : digitsOnly l = true) :
    ∀ c ∈ l, isDigitC c = true := by
  intro c hc
  unfold digitsOnly at h
  rw [Bool.and_eq_true] at h
  exact List.all_eq_true.mp h.2 c hc

theorem parseSection_mem (tok : List Char) (f : SectionForm)
    (h : parseSection tok = some f) : ∀ c ∈ tok, isDigitC c = true ∨ c = ':' := by
  intro c hc
  unfold parseSection at h
  cases hs : splitOnC ':' tok with
  | nil => exact absurd hs (splitOnC_ne_nil ':' tok)
  | cons a rest =>
    cases rest with
    | nil =>
      simp only [hs] at h
      by_cases hd : digitsOnly a = true
      · have htok : tok = a := splitOnC_eq_single ':' tok a hs
        exact Or.inl (digitsOnly_mem a hd c (htok ▸ hc))
      · rw [if_neg hd] at h; cases h
    | cons b rest2 =>
      cases rest2 with
      | nil =>
        simp only [hs] at h
        have htok : tok = a ++ ':' :: b := splitOnC_eq_pair ':' tok a b hs
        rw [htok] at hc
        rcases List.mem_append.mp hc with hca | hcb₀
        · split_ifs at h with h1 h2 h3
          · rw [Bool.and_eq_true] at h1
            exact Or.inl (digitsOnly_mem a h1.1 c hca)
          · rw [Bool.and_eq_true] at h2
            exact Or.inl (digitsOnly_mem a h2.1 c hca)
          · rw [Bool.and_eq_true] at h3
            have ha := h3.1
            cases a with
            | nil => cases hca
            | cons x xs => simp at ha
        · rcases List.mem_cons.mp hcb₀ with rfl | hcb
          · exact Or.inr rfl
          · split_ifs at h with h1 h2 h3
            · rw [Bool.and_eq_true] at h1
              exact Or.inl (digitsOnly_mem b h1.2 c hcb)
            · rw [Bool.and_eq_true] at h2
              have hb := h2.2
              cases b with
              | nil => cases hcb
              | cons x xs => simp at hb
            · rw [Bool.and_eq_true] at h3
              exact Or.inl (digitsOnly_mem b h3.2 c hcb)
      | cons _ _ =>
        simp only [hs] at h
        cases h

theorem parseSection_no_comma (tok : List Char) (f : SectionForm)
    (h : parseSection tok = some f) : ',' ∉ tok := by
  intro hc
  rcases parseSection_mem tok f h ',' hc with hd | hcol
  · exact absurd hd (by decide)
  · exact absurd hcol (by decide)

theorem sentancesOf_trim (c : List Char) (s : List Char) (hs : s ∈ sentancesOf c) :
    !(trimC spaceNL s).isEmpty := (List.mem_filter.mp hs).2

theorem appendArr_eq (arr : List (List Char))
    (h : ∀ s ∈ arr, !(trimC spaceNL s).isEmpty) :
    ∀ out, appendArr arr out = out ++ (arr.map (· ++ ['.'])).flatten := by
  induction arr with
  | nil => intro out; simp [appendArr]
  | cons s rest ih =>
    intro out
    simp only [appendArr]
    rw [if_pos (h s (List.mem_cons_self s rest))]
    rw [ih (fun s hs => h s (List.mem_cons_of_mem _ hs))]
    simp [List.flatten, List.append_assoc]

theorem processSection_ok_mem (full : String) (sents : List (List Char))
    (tok : List Char) (arr : List (List Char))
    (h : processSection full sents tok = .ok arr) :
    ∀ s ∈ arr, s ∈ sents := by
  intro s hs
  unfold processSection at h
  cases hp : parseSection tok with
  | none => simp only [hp] at h; cases h
  | some f =>
    cases f with
    | both i j =>
      simp only [hp] at h
      cases hcb : checkBounds i j sents.length full with
      | some e => simp only [hcb] at h; cases h
      | none =>
        simp only [hcb] at h
        cases h
        exact List.drop_subset i sents (List.take_subset _ _ hs)
    | fromIdx i =>
      simp only [hp] at h
      cases hcb : checkBounds i (-1) sents.length full with
      | some e => simp only [hcb] at h; cases h
      | none =>
        simp only [hcb] at h
        cases h
        exact List.drop_subset i sents hs
    | toIdx j =>
      simp only [hp] at h
      cases hcb : checkBounds (-1) j sents.length full with
      | some e => simp only [hcb] at h; cases h
      | none =>
        simp only [hcb] at h
        cases h
        exact List.take_subset j sents hs
    | single i =>
      simp only [hp] at h
      cases hcb : checkBounds i (-1) sents.length full with
      | some e => simp only [hcb] at h; cases h
      | none =>
        simp only [hcb] at h
        cases h
        rcases List.mem_singleton.mp hs with rfl
        have hi : i < sents.length := by
          rw [checkBounds_from_eq] at hcb
          by_cases hle : sents.length ≤ i
          · rw [if_pos hle] at hcb; cases hcb
          · omega
        rw [List.getD_eq_getElem sents [] hi]
        exact List.getElem_mem hi

theorem extractSectionsAux_eq (full : String) (sents : List (List Char))
    (hsent : ∀ s ∈ sents, !(trimC spaceNL s).isEmpty) :
    ∀ (toks : List (List Char)) (out : List Char) (arrs : List (List (List Char))),
      sectionArrs full sents toks = .ok arrs →
      extractSectionsAux full sents toks out =
        .ok (trimC [' ']
          (out ++ (arrs.map (fun arr => (arr.map (· ++ ['.'])).flatten)).flatten)) := by
  intro toks
  induction toks with
  | nil =>
    intro out arrs h
    simp only [sectionArrs] at h
    cases h
    simp [extractSectionsAux]
  | cons t ts ih =>
    intro out arrs h
    simp only [sectionArrs] at h
    cases hp : processSection full sents t with
    | error e => simp only [hp] at h; cases h
    | ok arr =>
      simp only [hp] at h
      cases hrest : sectionArrs full sents ts with
      | error e => simp only [hrest] at h; cases h
      | ok rest =>
        simp only [hrest] at h
        cases h
        simp only [extractSectionsAux, hp]
        rw [appendArr_eq arr
          (fun s hs => hsent s (processSection_ok_mem full sents t arr hp s hs)) out]
        rw [ih _ rest hrest]
        simp [List.flatten, List.append_assoc]

/-- Claim C3, amended: Token results are concatenated in listed order (not
sorted, not deduplicated), and the final string is trimmed of leading and
trailing space characters; within a token, each selected sentence is
appended in its original untrimmed form followed by the sentence
terminator — the trimmed form of a sentence is used only as a
non-emptiness test, not as the appended text. -/
theorem slices_concatenated (full sections comment : String)
    (arrs : List (List (List Char)))
    (h : sectionArrs full (sentancesOf comment.data) (splitOnC ',' sections.data) =
      .ok arrs) :
    extractSections full sections comment =
      .ok ⟨trimC [' '] ((arrs.map (fun arr => (arr.map (· ++ ['.'])).flatten)).flatten)⟩ := by
  unfold extractSections
  rw [extractSectionsAux_eq full _ (sentancesOf_trim comment.data) _ [] arrs h]
  simp [Except.map]

/-- Claim C3, counterexample: A selected sentence is not individually
trimmed before being re-terminated: slicing sentence 1 out of `"A.\nB."`
yields `"\nB."`, keeping the sentence's leading line break, not the
trimmed `"B."`. -/
theorem selected_sentence_not_trimmed :
    extractSections "x[1]" "1" "A.\nB." = .ok "\nB." ∧ ("\nB." : String) ≠ "B." :=
  ⟨by rfl, by decide⟩

theorem slices_concatenated_witness :
    sectionArrs "x[1,0:2]" (sentancesOf "A. B. C.".data) (splitOnC ',' "1,0:2".data) =
        .ok [[" B".data], ["A".data, " B".data]] ∧
      extractSections "x[1,0:2]" "1,0:2" "A. B. C." =
        .ok ⟨trimC [' ']
          (([[" B".data], ["A".data, " B".data]].map
            (fun arr => (arr.map (· ++ ['.'])).flatten)).flatten)⟩ :=
  ⟨by rfl, slices_concatenated "x[1,0:2]" "1,0:2" "A. B. C." _ (by rfl)⟩

/-- Claim C1, amended: For a token `i:j` with `0 ≤ i < j < N` (`N` the
sentence count), resolution succeeds and returns exactly the sentence-list
entries at positions `[i, j)` — as stored, untrimmed — each re-terminated
with the sentence terminator and concatenated in order with no omission or
duplication, the whole trimmed of surrounding spaces.  (The bound `j = N`
is rejected by the resolver, unlike in the original claim.) -/
theorem range_token_resolves (full sections comment : String) (i j : Nat)
    (hp : parseSection sections.data = some (.both i j))
    (hij : i < j) (hj : j < (sentancesOf comment.data).length) :
    extractSections full sections comment =
      .ok ⟨trimC [' ']
        (((((sentancesOf comment.data).drop i).take (j - i)).map (· ++ ['.'])).flatten)⟩ := by
  unfold extractSections
  rw [splitOnC_no_sep ',' sections.data (parseSection_no_comma _ _ hp)]
  have hps : processSection full (sentancesOf comment.data) sections.data =
      .ok (((sentancesOf comment.data).drop i).take (j - i)) := by
    simp only [processSection, hp, checkBounds_both_eq]
    split_ifs <;> first | rfl | (exfalso; omega)
  have harrs : sectionArrs full (sentancesOf comment.data) [sections.data] =
      .ok [((sentancesOf comment.data).drop i).take (j - i)] := by
    simp only [sectionArrs, hps]
  rw [extractSectionsAux_eq full _ (sentancesOf_trim comment.data) _ [] _ harrs]
  simp [Except.map, List.flatten]

/-- Claim C1, counterexample: The claim admits `j = N`, but a token whose
end bound equals the sentence count fails: `"0:1"` against the
one-sentence text `"A."` is rejected with an out-of-range error instead of
resolving to the only sentence. -/
theorem full_range_token_fails :
    extractSections "x[0:1]" "0:1" "A." = .error (.outOfRange 1 1 "x[0:1]") := by rfl

theorem range_token_resolves_witness :
    parseSection "0:2".data = some (.both 0 2) ∧ 0 < 2 ∧
      2 < (sentancesOf "A. B. C.".data).length ∧
      extractSections "x[0:2]" "0:2" "A. B. C." =
        .ok ⟨trimC [' ']
          (((((sentancesOf "A. B. C.".data).drop 0).take (2 - 0)).map
            (· ++ ['.'])).flatten)⟩ :=
  ⟨by rfl, by decide, by decide,
    range_token_resolves "x[0:2]" "0:2" "A. B. C." 0 2 (by rfl) (by decide) (by decide)⟩

theorem findDoc_nil : findDoc [] = none := by rw [findDoc]

theorem findDoc_cons_word (c : Char) (cs : List Char) (h : isWordChar c = true) :
    findDoc (c :: cs) =
      (match checkBracket ((c :: cs).dropWhile isWordChar) with
       | some cl => some ((c :: cs).takeWhile isWordChar, cl)
       | none => findDoc ((c :: cs).dropWhile isWordChar)) := by
  rw [findDoc, if_pos h]

theorem findDoc_cons_notword (c : Char) (cs : List Char) (h : ¬ isWordChar c = true) :
    findDoc (c :: cs) = findDoc cs := by
  rw [findDoc, if_neg h]

theorem checkBracket_none_of_no_bracket (l : List Char) (h : '[' ∉ l) :
    checkBracket l = none := by
  cases l with
  | nil => rfl
  | cons x r =>
    unfold checkBracket
    split
    · rename_i heq
      injection heq with hx _
      exact absurd hx.symm (fun he => h (he ▸ List.mem_cons_self x r))
    · rfl

theorem findDoc_of_no_bracket (l : List Char) (hbr : '[' ∉ l) : findDoc l = none := by
  have H : ∀ n (l : List Char), l.length ≤ n → '[' ∉ l → findDoc l = none := by
    intro n
    induction n with
    | zero =>
      intro l hl _
      have hnil : l = [] := List.eq_nil_of_length_eq_zero (Nat.le_zero.mp hl)
      rw [hnil]
      exact findDoc_nil
    | succ n ih =>
      intro l hl hbr
      cases l with
      | nil => exact findDoc_nil
      | cons c cs =>
        by_cases hw : isWordChar c = true
        · rw [findDoc_cons_word c cs hw]
          have hbr2 : '[' ∉ (c :: cs).dropWhile isWordChar := fun hx =>
            hbr ((List.dropWhile_suffix isWordChar).sublist.subset hx)
          rw [checkBracket_none_of_no_bracket _ hbr2]
          show findDoc ((c :: cs).dropWhile isWordChar) = none
          apply ih _ _ hbr2
          rw [List.dropWhile_cons_of_pos hw]
          exact Nat.le_trans (length_dropWhile_le _ _) (Nat.le_of_succ_le_succ hl)
        · rw [findDoc_cons_notword c cs hw]
          exact ih cs (Nat.le_of_succ_le_succ hl)
            (fun hx => hbr (List.mem_cons_of_mem c hx))
  exact H l.length l (Nat.le_refl _) hbr

theorem takeWhile_append_cons (p : Char → Bool) (l : List Char) (b : Char) (r : List Char)
    (hl : ∀ a ∈ l, p a = true) (hb : ¬ p b = true) :
    (l ++ b :: r).takeWhile p = l := by
  induction l with
  | nil => simp [List.takeWhile_cons_of_neg hb]
  | cons x xs ih =>
    rw [List.cons_append, List.takeWhile_cons_of_pos (hl x (List.mem_cons_self x xs))]
    rw [ih (fun a ha => hl a (List.mem_cons_of_mem x ha))]

theorem dropWhile_append_cons (p : Char → Bool) (l : List Char) (b : Char) (r : List Char)
    (hl : ∀ a ∈ l, p a = true) (hb : ¬ p b = true) :
    (l ++ b :: r).dropWhile p = b :: r := by
  induction l with
  | nil => simp [List.dropWhile_cons_of_neg hb]
  | cons x xs ih =>
    rw [List.cons_append, List.dropWhile_cons_of_pos (hl x (List.mem_cons_self x xs))]
    exact ih (fun a ha => hl a (List.mem_cons_of_mem x ha))

theorem checkBracket_class (sp : List Char) (hsp : sp ≠ [])
    (hcl : ∀ c ∈ sp, isClassChar c = true) :
    checkBracket ('[' :: (sp ++ [']'])) = some sp := by
  have htake : (sp ++ [']']).takeWhile isClassChar = sp :=
    takeWhile_append_cons isClassChar sp ']' [] hcl (by decide)
  have hdrop : (sp ++ [']']).dropWhile isClassChar = [']'] :=
    dropWhile_append_cons isClassChar sp ']' [] hcl (by decide)
  simp only [checkBracket, htake, hdrop]
  cases sp with
  | nil => exact absurd rfl hsp
  | cons x xs => rfl

theorem findDoc_dotted (t m sp : List Char)
    (ht : t ≠ []) (htw : ∀ c ∈ t, isWordChar c = true)
    (hm : m ≠ []) (hmw : ∀ c ∈ m, isWordChar c = true)
    (hsp : sp ≠ []) (hspc : ∀ c ∈ sp, isClassChar c = true) :
    findDoc (t ++ '.' :: (m ++ '[' :: (sp ++ [']']))) = some (m, sp) := by
  cases t with
  | nil => exact absurd rfl ht
  | cons c cs =>
    rw [List.cons_append]
    rw [findDoc_cons_word c _ (htw c (List.mem_cons_self c cs))]
    have hdrop : ((c :: (cs ++ '.' :: (m ++ '[' :: (sp ++ [']'])))).dropWhile isWordChar) =
        '.' :: (m ++ '[' :: (sp ++ [']'])) := by
      have h₀ := dropWhile_append_cons isWordChar (c :: cs) '.'
        (m ++ '[' :: (sp ++ [']'])) htw (by decide)
      simpa using h₀
    rw [hdrop]
    rw [show checkBracket ('.' :: (m ++ '[' :: (sp ++ [']']))) = none from rfl]
    show findDoc ('.' :: (m ++ '[' :: (sp ++ [']']))) = some (m, sp)
    rw [findDoc_cons_notword '.' _ (by decide)]
    cases m with
    | nil => exact absurd rfl hm
    | cons d ds =>
      rw [List.cons_append]
      rw [findDoc_cons_word d _ (hmw d (List.mem_cons_self d ds))]
      have hdrop2 : ((d :: (ds ++ '[' :: (sp ++ [']']))).dropWhile isWordChar) =
          '[' :: (sp ++ [']']) := by
        have h₀ := dropWhile_append_cons isWordChar (d :: ds) '['
          (sp ++ [']']) hmw (by decide)
        simpa using h₀
      have htake2 : ((d :: (ds ++ '[' :: (sp ++ [']']))).takeWhile isWordChar) =
          d :: ds := by
        have h₀ := takeWhile_append_cons isWordChar (d :: ds) '['
          (sp ++ [']']) hmw (by decide)
        simpa using h₀
      rw [hdrop2, htake2, checkBracket_class sp hsp hspc]

theorem docFunc_plain_nobracket (comments : CommentsMap) (name c : String)
    (hbr : '[' ∉ name.data)
    (hc : List.lookup name comments = some c) :
    DocFunc comments name = .ok ⟨trimC ['\n'] c.data⟩ := by
  unfold DocFunc
  rw [findDoc_of_no_bracket name.data hbr]
  show (match List.lookup name comments with
    | none => Except.error (Err.docNotFound name)
    | some c => Except.ok (⟨trimC ['\n'] c.data⟩ : String)) = .ok ⟨trimC ['\n'] c.data⟩
  rw [hc]

/-- Claim C5, counterexample: an indexed symbol name is not always served
by the plain path.  A file named `"a[0].go"` is indexed under the file key
`"a[0]_go"`, and the sliceless lookup of that very key matches `docRegex`
(capturing `"a"` and `"0"`), so it is routed to the slicing path and fails
with a not-found error for `"a"` instead of returning the stored doc text
trimmed of line breaks. -/
theorem bracketed_key_slices_instead :
    scanPkg [⟨"d/a[0].go", "\nD.\n", []⟩] = .ok [("a[0]_go", "\nD.\n")] ∧
      DocFunc [("a[0]_go", "\nD.\n")] "a[0]_go" =
        .error (.docNotFoundIn "a" "a[0]_go") ∧
      (Except.error (Err.docNotFoundIn "a" "a[0]_go") : Except Err String) ≠
        .ok ⟨trimC ['\n'] ("\nD.\n" : String).data⟩ := by
  refine ⟨by rfl, ?_, fun h => Except.noConfusion h⟩
  have h1 : findDoc ("a[0]_go" : String).data =
      some (("a" : String).data, ("0" : String).data) := by
    rw [show ("a[0]_go" : String).data = 'a' :: ("[0]_go" : String).data from rfl]
    rw [findDoc_cons_word 'a' _ (by decide)]
    rfl
  unfold DocFunc
  rw [h1]
  rfl

/-- Claim C5, amended: for every indexed symbol name containing no `'['`
character — which covers every function, type, value, method and field key
and every file key whose filename is bracket-free, in particular the
dotted keys `"Type.Method"` and `"Type.Field"` — a lookup request carrying
no slice spec returns the stored doc text with only surrounding line
breaks trimmed, performing no sentence splitting or re-joining; a key
containing a bracketed segment (possible only for file keys derived from
bracket-bearing filenames) is instead parsed as a slice request.  The
plain path is in general not equivalent to a full-range slice of the same
doc text: on the doc text `"Hello"`, the plain path yields `"Hello"` while
the full-range slice `"0:"` yields `"Hello."`. -/
theorem plain_lookup_trims_newlines_only (comments : CommentsMap) (name c : String)
    (hbr : '[' ∉ name.data)
    (hc : List.lookup name comments = some c) :
    DocFunc comments name = .ok ⟨trimC ['\n'] c.data⟩ ∧
      DocFunc [("T.M", "Hello")] "T.M" = .ok "Hello" ∧
      extractSections "X[0:]" "0:" "Hello" = .ok "Hello." ∧
      (Except.ok "Hello" : Except Err String) ≠ .ok "Hello." := by
  refine ⟨docFunc_plain_nobracket comments name c hbr hc, ?_, by rfl,
    fun h => absurd (Except.ok.inj h) (by decide)⟩
  exact docFunc_plain_nobracket [("T.M", "Hello")] "T.M" "Hello" (by decide) (by rfl)

theorem plain_lookup_trims_newlines_only_witness :
    ('[' ∉ ("T.M" : String).data) ∧
      List.lookup ("T.M" : String) [(("T.M" : String), ("\nHello\n" : String))] =
        some "\nHello\n" ∧
      DocFunc [("T.M", "\nHello\n")] "T.M" =
        .ok ⟨trimC ['\n'] ("\nHello\n" : String).data⟩ :=
  ⟨by decide, by rfl,
    (plain_lookup_trims_newlines_only [("T.M", "\nHello\n")] "T.M" "\nHello\n"
      (by decide) (by rfl)).1⟩

/-- Claim C9: A slice request against a dotted key (such as a method or
field key `"Type.Method"`) never resolves against that key: the doc-request
pattern captures only the trailing word segment as the symbol name, so the
lookup consults the segment alone — failing with a not-found error naming
the segment when no symbol bears it, and otherwise slicing that other
symbol's doc text. -/
theorem dotted_key_never_resolves (comments : CommentsMap) (t m sp : String)
    (ht : t.data ≠ [] ∧ ∀ c ∈ t.data, isWordChar c = true)
    (hm : m.data ≠ [] ∧ ∀ c ∈ m.data, isWordChar c = true)
    (hsp : sp.data ≠ [] ∧ ∀ c ∈ sp.data, isClassChar c = true) :
    DocFunc comments (t ++ "." ++ m ++ "[" ++ sp ++ "]") =
      (match List.lookup m comments with
       | none => .error (.docNotFoundIn m (t ++ "." ++ m ++ "[" ++ sp ++ "]"))
       | some c => extractSections (t ++ "." ++ m ++ "[" ++ sp ++ "]") sp c) := by
  unfold DocFunc
  have hdata : (t ++ "." ++ m ++ "[" ++ sp ++ "]").data =
      t.data ++ '.' :: (m.data ++ '[' :: (sp.data ++ [']'])) := by
    simp [String.data_append]
  rw [hdata, findDoc_dotted t.data m.data sp.data ht.1 ht.2 hm.1 hm.2 hsp.1 hsp.2]

theorem dotted_key_never_resolves_witness :
    (("Type" : String).data ≠ [] ∧ ∀ c ∈ ("Type" : String).data, isWordChar c = true) ∧
      DocFunc [] ("Type" ++ "." ++ "Method" ++ "[" ++ "0:2" ++ "]") =
        .error (.docNotFoundIn "Method" ("Type" ++ "." ++ "Method" ++ "[" ++ "0:2" ++ "]")) :=
  ⟨⟨by decide, by decide⟩,
    dotted_key_never_resolves [] "Type" "Method" "0:2"
      ⟨by decide, by decide⟩ ⟨by decide, by decide⟩ ⟨by decide, by decide⟩⟩

theorem isPrefixOf_iff_exists (p : List Char) :
    ∀ l, p.isPrefixOf l = true ↔ ∃ u, l = p ++ u := by
  induction p with
  | nil =>
    intro l
    constructor
    · intro _; exact ⟨l, rfl⟩
    · intro _; cases l <;> rfl
  | cons x xs ih =>
    intro l
    cases l with
    | nil =>
      constructor
      · intro h; simp [List.isPrefixOf] at h
      · rintro ⟨u, h⟩; cases h
    | cons y ys =>
      simp only [List.isPrefixOf, Bool.and_eq_true, beq_iff_eq, ih ys]
      constructor
      · rintro ⟨rfl, u, rfl⟩; exact ⟨u, rfl⟩
      · rintro ⟨u, h⟩
        injection h with h1 h2
        exact ⟨h1.symm, u, h2⟩

theorem indexOfPat_none (pat : List Char) :
    ∀ l, indexOfPat pat l = none → ∀ i u, l.drop i ≠ pat ++ u := by
  intro l
  induction l with
  | nil =>
    intro h i u hd
    simp only [indexOfPat] at h
    rw [List.drop_nil] at hd
    have : pat = [] := by
      cases pat with
      | nil => rfl
      | cons _ _ => cases hd
    rw [this] at h
    simp at h
  | cons c cs ih =>
    intro h i u hd
    simp only [indexOfPat] at h
    by_cases hp : pat.isPrefixOf (c :: cs) = true
    · rw [if_pos hp] at h; cases h
    · rw [if_neg hp] at h
      cases i with
      | zero =>
        rw [List.drop_zero] at hd
        exact hp ((isPrefixOf_iff_exists pat (c :: cs)).mpr ⟨u, hd⟩)
      | succ i =>
        have hrec : indexOfPat pat cs = none := by
          cases hr : indexOfPat pat cs with
          | none => rfl
          | some v => rw [hr] at h; cases h
        exact ih hrec i u hd

theorem indexOfPat_min (pat : List Char) :
    ∀ l idx, indexOfPat pat l = some idx →
      ∀ i, i < idx → ∀ u, l.drop i ≠ pat ++ u := by
  intro l
  induction l with
  | nil =>
    intro idx h i hi u hd
    simp only [indexOfPat] at h
    by_cases hp : pat.isEmpty = true
    · rw [if_pos hp] at h; cases h; cases hi
    · rw [if_neg hp] at h; cases h
  | cons c cs ih =>
    intro idx h i hi u hd
    simp only [indexOfPat] at h
    by_cases hp : pat.isPrefixOf (c :: cs) = true
    · rw [if_pos hp] at h; cases h; cases hi
    · rw [if_neg hp] at h
      cases hr : indexOfPat pat cs with
      | none => rw [hr] at h; cases h
      | some idx' =>
        rw [hr] at h
        simp only [Option.map] at h
        cases h
        cases i with
        | zero =>
          rw [List.drop_zero] at hd
          exact hp ((isPrefixOf_iff_exists pat (c :: cs)).mpr ⟨u, hd⟩)
        | succ i =>
          exact ih idx' hr i (by omega) u hd

theorem indexOfPat_le_length (pat : List Char) :
    ∀ l idx, indexOfPat pat l = some idx → idx ≤ l.length := by
  intro l
  induction l with
  | nil =>
    intro idx h
    simp only [indexOfPat] at h
    by_cases hp : pat.isEmpty = true
    · rw [if_pos hp] at h; cases h; exact Nat.le_refl 0
    · rw [if_neg hp] at h; cases h
  | cons c cs ih =>
    intro idx h
    simp only [indexOfPat] at h
    by_cases hp : pat.isPrefixOf (c :: cs) = true
    · rw [if_pos hp] at h; cases h; exact Nat.zero_le _
    · rw [if_neg hp] at h
      cases hr : indexOfPat pat cs with
      | none => rw [hr] at h; cases h
      | some idx' =>
        rw [hr] at h
        simp only [Option.map] at h
        cases h
        exact Nat.succ_le_succ (ih idx' hr)

theorem pfx_of_append (a b pat u : List Char) (hd : a ++ b = pat ++ u)
    (hfit : pat.length ≤ a.length) : ∃ w, a = pat ++ w := by
  refine ⟨a.drop pat.length, ?_⟩
  conv_lhs => rw [← List.take_append_drop pat.length a]
  congr 1
  have h1 : (a ++ b).take pat.length = a.take pat.length :=
    List.take_append_of_le_length hfit
  have h2 : (pat ++ u).take pat.length = pat := List.take_left pat u
  rw [← h1, hd, h2]

theorem exists_drop_of_infix {pat l : List Char} (h : pat <:+: l) :
    ∃ i u, l.drop i = pat ++ u := by
  rcases h with ⟨s, t, hst⟩
  refine ⟨s.length, t, ?_⟩
  rw [← hst, List.append_assoc, List.drop_left]

/-- Claim C6: Rendering an example's code in the non-annotated (plain) mode
never contains the literal output-assertion marker `"\n\t// Output:"`, even
when the printed example source included an output-assertion comment block:
the rendering is truncated at the first occurrence of the marker and the
block is re-closed with `"\n}"`, discarding the assertion text. -/
theorem plain_render_no_marker (printed : String) :
    ¬ oMarker <:+: (ExampleFuncPlain printed).data := by
  intro hinf
  rcases exists_drop_of_infix hinf with ⟨i, u, hd⟩
  rw [show (ExampleFuncPlain printed).data = stripOutput (fixBrace printed.data)
    from rfl] at hd
  unfold stripOutput at hd
  cases hidx : indexOfPat oMarker (fixBrace printed.data) with
  | none =>
    rw [hidx] at hd
    exact indexOfPat_none oMarker (fixBrace printed.data) hidx i u hd
  | some idx =>
    rw [hidx] at hd
    have hm12 : oMarker.length = 12 := by rfl
    have hidxle : idx ≤ (fixBrace printed.data).length :=
      indexOfPat_le_length oMarker (fixBrace printed.data) idx hidx
    have hlen_take : ((fixBrace printed.data).take idx).length = idx := by
      rw [List.length_take]
      exact Nat.min_eq_left hidxle
    have hdlen := congrArg List.length hd
    rw [List.length_drop, List.length_append, List.length_append, hlen_take,
      hm12] at hdlen
    by_cases hcase : i + 12 ≤ idx
    · have hi_le : i ≤ ((fixBrace printed.data).take idx).length := by omega
      rw [List.drop_append_of_le_length hi_le] at hd
      have hfit : oMarker.length ≤ (((fixBrace printed.data).take idx).drop i).length := by
        rw [List.length_drop, hlen_take, hm12]
        omega
      obtain ⟨w, hw⟩ := pfx_of_append _ _ _ _ hd hfit
      rw [List.drop_take idx i (fixBrace printed.data)] at hw
      have hocc : (fixBrace printed.data).drop i =
          oMarker ++ (w ++ ((fixBrace printed.data).drop i).drop (idx - i)) := by
        conv_lhs =>
          rw [← List.take_append_drop (idx - i) ((fixBrace printed.data).drop i)]
        rw [hw, List.append_assoc]
      exact indexOfPat_min oMarker (fixBrace printed.data) idx hidx i (by omega) _ hocc
    · have hch : ((fixBrace printed.data).take idx ++ ['\n', '}'])[i + 11]? =
          some ':' := by
        have hge := congrArg (fun v => v[11]?) hd
        simp only [List.getElem?_drop] at hge
        rw [hge, List.getElem?_append_left (by rw [hm12]; omega)]
        rfl
      rcases (by simp at hdlen; omega : i + 11 = idx ∨ i + 11 = idx + 1) with he | he
      · rw [he, List.getElem?_append_right (by omega : ((fixBrace printed.data).take idx).length ≤ idx)] at hch
        rw [hlen_take, Nat.sub_self] at hch
        cases hch
      · rw [he, List.getElem?_append_right (by omega : ((fixBrace printed.data).take idx).length ≤ idx + 1)] at hch
        rw [hlen_take, Nat.add_sub_cancel_left] at hch
        cases hch

example : extractSections "x[1:]" "1:" "A. B. C." = .ok "B. C." := by rfl

example : extractSections "x[5]" "5" "A. B. C." = .error (.outOfRange 5 3 "x[5]") := by rfl

example : extractSections "x[2:1]" "2:1" "A. B. C." = .error (.order "x[2:1]") := by rfl

example :
    ExampleFuncPlain "\x7b\n\tfmt.Println(1)\n\t// Output: 1\n\x7d" =
      "\x7b\n\tfmt.Println(1)\n\x7d" := by
  rfl

example :
    scanPkg [⟨"d/f.go", "", [.funcDecl "doc\n" "M" (some (.star (.ident "T")))]⟩] =
      .ok [("T.M", "doc\n")] := by rfl

example :
    scanPkg [⟨"d/f.go", "", [.genDecl "" [.typeSpec "T" .otherType]]⟩] =
      .ok [("T", "")] := by rfl

example :
    scanPkg [⟨"d/f.go", "",
      [.genDecl "d\n" [.typeSpec "T" (.structType [⟨"fd\n", []⟩])]]⟩] =
      .error .indexOutOfRange := by rfl

end Rebecca
